import Mathlib

/-!
Verification of the `the-book` repository (Rust Book club exercises).

The main modelled component is the Document Workflow Engine (chapter 17,
`blog`): a draft/review/publish state machine.  The library crate `blog`
itself is not among the provided sources (only its caller
`src/chapter-17/blog/src/main.rs` is), so the `Post` operations below are
modelled from the specification's own description of the operations; the
caller's assertions are proved against the model as a sanity check.

Also embedded, directly from their sources:
* `medmod::median` and `medmod::mode` from
  `src/chapter-08/median_mode/src/lib.rs`;
* `fibonacci` (naive, `u32`) and `fibonacci_tco` (tail recursive, `u64`)
  from `src/chapter-03/fibonacci/src/main.rs`.
-/

/-- The three workflow states of a blog post. -/
inductive State where
  | Draft
  | PendingReview
  | Published
deriving DecidableEq, Repr

/-- A document: current state, accumulated content, approval count. -/
structure Post where
  state : State
  content : String
  approvals : Nat
deriving DecidableEq, Repr

/-- Modelled from the spec: a Document is created fresh in `Draft` with
empty content (the `blog` library crate is not among the sources). -/
def Post.new : Post :=
  { state := State.Draft, content := "", approvals := 0 }

/-- Modelled from the spec: `add_text(fragment)` appends `fragment` to the
content while `state == Draft`, and is a no-op in any other state. -/
def Post.add_text (p : Post) (fragment : String) : Post :=
  match p.state with
  | State.Draft => { p with content := p.content ++ fragment }
  | _ => p

/-- Modelled from the spec: `request_review()` transitions
`Draft → PendingReview`, resetting `approvals` to 0; no-op if already
`PendingReview` or `Published`. -/
def Post.request_review (p : Post) : Post :=
  match p.state with
  | State.Draft => { p with state := State.PendingReview, approvals := 0 }
  | _ => p

/-- Modelled from the spec: `reject()` transitions `PendingReview → Draft`
and is a no-op in any other state; content is never erased. -/
def Post.reject (p : Post) : Post :=
  match p.state with
  | State.PendingReview => { p with state := State.Draft }
  | _ => p

/-- Modelled from the spec: `approve()` increments `approvals` while
`state == PendingReview`; if the incremented count reaches 2 the post
transitions to `Published`; no-op if `state != PendingReview`. -/
def Post.approve (p : Post) : Post :=
  match p.state with
  | State.PendingReview =>
      if 2 ≤ p.approvals + 1 then
        { p with state := State.Published, approvals := p.approvals + 1 }
      else
        { p with approvals := p.approvals + 1 }
  | _ => p

/-- Modelled from the spec: `visible_content()` returns the accumulated
text if `state == Published`, else the empty string. -/
def Post.visible_content (p : Post) : String :=
  match p.state with
  | State.Published => p.content
  | _ => ""

/-- Modelled from the spec: `current_state()` returns the state tag. -/
def Post.current_state (p : Post) : State :=
  p.state

/-- One mutating operation of the workflow API. -/
inductive Op where
  | add_text (fragment : String)
  | request_review
  | reject
  | approve
deriving DecidableEq, Repr

/-- Apply one operation to a post. -/
def Post.apply (p : Post) : Op → Post
  | Op.add_text s => p.add_text s
  | Op.request_review => p.request_review
  | Op.reject => p.reject
  | Op.approve => p.approve

/-- Run a sequence of operations from a given post. -/
def Post.run (p : Post) (ops : List Op) : Post :=
  ops.foldl Post.apply p

lemma Post.visible_content_ne_iff (p : Post) :
    p.visible_content ≠ "" ↔
      (p.current_state = State.Published ∧ p.content ≠ "") := by
  obtain ⟨s, c, a⟩ := p
  cases s <;> simp [Post.visible_content, Post.current_state]

/-- C2: the full scenario of `main.rs`: starting fresh the document is in
`Draft` with empty visible content; after
`add_text "I ate a salad for lunch today"`, `request_review`, `reject`,
`request_review`, `approve`, `approve` the states are exactly
Draft, PendingReview, Draft, PendingReview, PendingReview, Published,
with empty visible content at every intermediate step and the full text
visible after the second approve. -/
theorem scenario_trace :
    (Post.new.current_state = State.Draft ∧ Post.new.visible_content = "")
    ∧ (let p := Post.new.add_text "I ate a salad for lunch today"
       p.current_state = State.Draft ∧ p.visible_content = "")
    ∧ (let p := (Post.new.add_text "I ate a salad for lunch today").request_review
       p.current_state = State.PendingReview ∧ p.visible_content = "")
    ∧ (let p := ((Post.new.add_text "I ate a salad for lunch today").request_review).reject
       p.current_state = State.Draft ∧ p.visible_content = "")
    ∧ (let p := (((Post.new.add_text "I ate a salad for lunch today").request_review).reject).request_review
       p.current_state = State.PendingReview ∧ p.visible_content = "")
    ∧ (let p := ((((Post.new.add_text "I ate a salad for lunch today").request_review).reject).request_review).approve
       p.current_state = State.PendingReview ∧ p.visible_content = "")
    ∧ (let p := (((((Post.new.add_text "I ate a salad for lunch today").request_review).reject).request_review).approve).approve
       p.current_state = State.Published ∧
       p.visible_content = "I ate a salad for lunch today") := by
  decide

/-- C4: `add_text` is a pure no-op (state, content and approvals all
unchanged, no error) whenever the current state is not `Draft`. -/
theorem add_text_noop (p : Post) (fragment : String)
    (h : p.current_state ≠ State.Draft) :
    p.add_text fragment = p := by
  obtain ⟨s, c, a⟩ := p
  cases s with
  | Draft => exact absurd rfl h
  | PendingReview => rfl
  | Published => rfl

/-- Witness for C4 at a concrete published post. -/
theorem add_text_noop_witness :
    Post.add_text
        { state := State.Published, content := "body", approvals := 2 } "x"
      = { state := State.Published, content := "body", approvals := 2 } :=
  add_text_noop
    { state := State.Published, content := "body", approvals := 2 } "x"
    (by decide)

/-- C5: `request_review` is idempotent (two calls in a row are observably
the same as one), and a redundant call made while already in
`PendingReview` changes nothing — in particular it does not reset the
approvals counter. -/
theorem request_review_idem (p : Post) :
    p.request_review.request_review = p.request_review ∧
      (p.current_state = State.PendingReview → p.request_review = p) := by
  obtain ⟨s, c, a⟩ := p
  cases s <;> simp [Post.request_review, Post.current_state]

/-- C1 as stated is false: a fresh document taken to `Published` by
`request_review; approve; approve` without any `add_text` is in state
`Published` yet `visible_content()` is the empty string, refuting the
biconditional "visible content non-empty iff Published". -/
theorem visible_iff_published_cex :
    (Post.run Post.new [Op.request_review, Op.approve, Op.approve]).current_state
        = State.Published ∧
      (Post.run Post.new [Op.request_review, Op.approve, Op.approve]).visible_content
        = "" := by
  decide

/-- C1 amended: for every sequence of operations applied to a fresh
document, `visible_content()` is non-empty if and only if the state is
`Published` and the accumulated content is non-empty. -/
theorem visible_iff_published_amended (ops : List Op) :
    (Post.run Post.new ops).visible_content ≠ "" ↔
      ((Post.run Post.new ops).current_state = State.Published ∧
        (Post.run Post.new ops).content ≠ "") :=
  Post.visible_content_ne_iff (Post.run Post.new ops)

/-- C3: in `PendingReview`, `approve` increments the approvals counter by
exactly one and keeps the content; it publishes exactly when the
incremented count reaches 2, else stays in `PendingReview`.  In any other
state `approve` is a no-op.  Hence from a `Draft` post, a fresh
`request_review` followed by one `approve` is still `PendingReview` and a
second `approve` publishes. -/
theorem approve_spec (p : Post) :
    (p.current_state = State.PendingReview →
        p.approve.approvals = p.approvals + 1 ∧
        p.approve.content = p.content ∧
        (2 ≤ p.approvals + 1 → p.approve.current_state = State.Published) ∧
        (p.approvals + 1 < 2 → p.approve.current_state = State.PendingReview)) ∧
      (p.current_state ≠ State.PendingReview → p.approve = p) ∧
      (p.current_state = State.Draft →
        p.request_review.approve.current_state = State.PendingReview ∧
        p.request_review.approve.approve.current_state = State.Published) := by
  obtain ⟨s, c, a⟩ := p
  cases s with
  | Draft => simp [Post.approve, Post.request_review, Post.current_state]
  | PendingReview =>
      refine ⟨fun _ => ?_, fun h => absurd rfl h, fun h => by simp [Post.current_state] at h⟩
      simp only [Post.approve, Post.current_state]
      split_ifs with h
      · exact ⟨rfl, rfl, fun _ => rfl, fun h2 => absurd h (by omega)⟩
      · exact ⟨rfl, rfl, fun h2 => absurd h2 h, fun _ => rfl⟩
  | Published => simp [Post.approve, Post.current_state]

/-- Witness for C3 at a concrete pending-review post with one approval. -/
theorem approve_spec_witness :
    (Post.approve
        { state := State.PendingReview, content := "t", approvals := 1 }).approvals
        = 2 ∧
      (Post.approve
        { state := State.PendingReview, content := "t", approvals := 1 }).current_state
        = State.Published := by
  have h := approve_spec
    { state := State.PendingReview, content := "t", approvals := 1 }
  obtain ⟨hpr, -, -⟩ := h
  obtain ⟨h1, -, h2, -⟩ := hpr (by decide)
  exact ⟨h1, h2 (by decide)⟩

/-- C6: `reject` transitions `PendingReview → Draft`, is a no-op in every
other state, and in all cases leaves the accumulated content exactly as it
was. -/
theorem reject_spec (p : Post) :
    (p.current_state = State.PendingReview →
        p.reject.current_state = State.Draft) ∧
      (p.current_state ≠ State.PendingReview → p.reject = p) ∧
      p.reject.content = p.content := by
  obtain ⟨s, c, a⟩ := p
  cases s <;> simp [Post.reject, Post.current_state]

/-- Witness for C6 at a concrete pending-review post. -/
theorem reject_spec_witness :
    (Post.reject
        { state := State.PendingReview, content := "t", approvals := 1 }).current_state
        = State.Draft := by
  have h := reject_spec
    { state := State.PendingReview, content := "t", approvals := 1 }
  exact h.1 (by decide)

/-- C7: every operation is total (the model is a total function — no
error is possible), every call that is illegal for the current state is an
atomic no-op leaving the whole document unchanged, and in particular every
mutating operation invoked while `Published` leaves the document
unchanged. -/
theorem illegal_ops_noop (p : Post) (fragment : String) :
    (p.current_state ≠ State.Draft → p.add_text fragment = p) ∧
      (p.current_state ≠ State.Draft → p.request_review = p) ∧
      (p.current_state ≠ State.PendingReview → p.reject = p) ∧
      (p.current_state ≠ State.PendingReview → p.approve = p) ∧
      (p.current_state = State.Published →
        p.add_text fragment = p ∧ p.request_review = p ∧
          p.reject = p ∧ p.approve = p) := by
  obtain ⟨s, c, a⟩ := p
  cases s <;>
    simp [Post.add_text, Post.request_review, Post.reject, Post.approve,
      Post.current_state]

/-- Witness for C7 at a concrete published post. -/
theorem illegal_ops_noop_witness :
    Post.approve
        { state := State.Published, content := "t", approvals := 2 }
      = { state := State.Published, content := "t", approvals := 2 } := by
  have h := illegal_ops_noop
    { state := State.Published, content := "t", approvals := 2 } "x"
  exact (h.2.2.2.2 (by decide)).2.2.2

/-- Witness for C5 at a concrete pending-review post. -/
theorem request_review_idem_witness :
    Post.request_review
        { state := State.PendingReview, content := "t", approvals := 1 }
      = { state := State.PendingReview, content := "t", approvals := 1 } :=
  (request_review_idem
      { state := State.PendingReview, content := "t", approvals := 1 }).2
    (by decide)

/-- `medmod::median` from `src/chapter-08/median_mode/src/lib.rs`: on an
empty vector return `None`; otherwise clone, sort, and return the element
at index `len / 2` of the sorted copy (the index is always in bounds, so
the Rust indexing cannot panic). -/
def median (vec : List Int) : Option Int :=
  if h : vec.length < 1 then none
  else
    some ((vec.insertionSort (· ≤ ·)).get
      ⟨vec.length / 2, by rw [List.length_insertionSort]; omega⟩)

/-- C8: `median vec` is `none` iff `vec` is empty, and for every sorted
permutation `l` of `vec` it returns the entry of `l` at index
`vec.length / 2` (the upper middle element for even lengths).  The input
itself is untouched (the Rust code sorts a clone; the embedding is
pure). -/
theorem median_spec (vec : List Int) :
    (median vec = none ↔ vec = []) ∧
      ∀ l : List Int, l.Perm vec → l.Sorted (· ≤ ·) →
        median vec = l[vec.length / 2]? := by
  constructor
  · constructor
    · intro h
      by_contra hne
      have hlen : 1 ≤ vec.length := List.length_pos.mpr hne
      unfold median at h
      rw [dif_neg (by omega)] at h
      exact Option.some_ne_none _ h
    · intro h
      subst h
      rfl
  · intro l hperm hsorted
    by_cases hv : vec = []
    · subst hv
      have hl : l = [] := List.Perm.eq_nil hperm
      subst hl
      rfl
    · have hlen : 1 ≤ vec.length := List.length_pos.mpr hv
      have hsorted2 : (vec.insertionSort (· ≤ ·)).Sorted (· ≤ ·) :=
        List.sorted_insertionSort _ vec
      have hperm2 : (vec.insertionSort (· ≤ ·)).Perm vec :=
        List.perm_insertionSort _ vec
      have heq : l = vec.insertionSort (· ≤ ·) :=
        List.eq_of_perm_of_sorted (hperm.trans hperm2.symm) hsorted hsorted2
      subst heq
      unfold median
      rw [dif_neg (by omega)]
      rw [List.getElem?_eq_getElem (by rw [List.length_insertionSort]; omega)]
      simp [List.get_eq_getElem]

/-- Witness for C8: the median of `[3, 1, 2]` via its sorted permutation
`[1, 2, 3]`. -/
theorem median_spec_witness : median [(3 : Int), 1, 2] = some 2 := by
  have h := (median_spec [(3 : Int), 1, 2]).2 [1, 2, 3] (by decide) (by decide)
  simpa using h

/-- Reduction of an integer into the signed 32-bit range
`[-2 ^ 31, 2 ^ 31)`: the value an `i32` holds after two's-complement
wrapping. -/
def wrap32 (z : Int) : Int :=
  (z + 2 ^ 31) % 2 ^ 32 - 2 ^ 31

/-- One `i32` increment `*count += 1` of the counting loop in
`medmod::mode`, with release-mode wrapping. -/
def incWrap (c : Int) : Int :=
  wrap32 (c + 1)

lemma wrap32_eq_of_lt (z : Int) (h0 : 0 ≤ z) (h1 : z < 2 ^ 31) :
    wrap32 z = z := by
  unfold wrap32
  omega

/-- The `i32` counter of a key reached by `n` wrapped increments from 0
holds `wrap32 n`. -/
lemma incWrap_iterate (n : Nat) : incWrap^[n] 0 = wrap32 n := by
  induction n with
  | zero =>
      simp [wrap32]
  | succ n ih =>
      rw [Function.iterate_succ_apply']
      rw [ih]
      unfold incWrap wrap32
      push_cast
      omega

/-- One step of the maximum-count scan in `medmod::mode`: replace the best
pair exactly when the new count is strictly larger.  The accumulator is
the Rust `(Option<i32>, i32)` pair, so the comparison is on signed 32-bit
values. -/
def modeStep (best : Option Int × Int) (kv : Int × Int) : Option Int × Int :=
  if best.2 < kv.2 then (some kv.1, kv.2) else best

/-- `medmod::mode` from `src/chapter-08/median_mode/src/lib.rs`: build a
count map and scan its entries keeping the strictly largest count.  The
Rust `HashMap` iteration order is unspecified, so the scan order is an
explicit parameter `pairs`, constrained to be the entries of the count map
by `IsCountMap`. -/
def mode (vec : List Int) (pairs : List (Int × Int)) : Option Int :=
  (pairs.foldl modeStep (none, 0)).1

/-- `pairs` lists the entries of the count map of `vec` (in some order):
distinct keys, exactly the elements of `vec`, each with the value its
`i32` counter holds after one wrapped increment per occurrence, namely
`wrap32` of the multiplicity (see `incWrap_iterate`; a debug build would
panic at the 2 ^ 31-th increment instead of wrapping). -/
def IsCountMap (vec : List Int) (pairs : List (Int × Int)) : Prop :=
  (pairs.map Prod.fst).Nodup ∧
    (∀ x ∈ vec, x ∈ pairs.map Prod.fst) ∧
    (∀ kv ∈ pairs, kv.1 ∈ vec ∧ kv.2 = wrap32 (vec.count kv.1))

lemma modeFold_cases (pairs : List (Int × Int)) :
    ∀ acc : Option Int × Int,
      (pairs.foldl modeStep acc = acc ∨
          ∃ kv ∈ pairs, pairs.foldl modeStep acc = (some kv.1, kv.2)) ∧
        acc.2 ≤ (pairs.foldl modeStep acc).2 ∧
        ∀ kv ∈ pairs, kv.2 ≤ (pairs.foldl modeStep acc).2 := by
  induction pairs with
  | nil =>
      intro acc
      exact ⟨Or.inl rfl, le_refl _, by simp⟩
  | cons kv rest ih =>
      intro acc
      simp only [List.foldl_cons]
      obtain ⟨hres, hmono, hbound⟩ := ih (modeStep acc kv)
      have hstep : acc.2 ≤ (modeStep acc kv).2 := by
        unfold modeStep
        split_ifs with hc
        · exact le_of_lt hc
        · exact le_refl _
      have hstep2 : kv.2 ≤ (modeStep acc kv).2 := by
        unfold modeStep
        split_ifs with hc
        · exact le_refl _
        · omega
      refine ⟨?_, le_trans hstep hmono, ?_⟩
      · cases hres with
        | inl h =>
            rw [h]
            unfold modeStep
            split_ifs with hc
            · exact Or.inr ⟨kv, List.mem_cons_self kv rest, rfl⟩
            · exact Or.inl rfl
        | inr h =>
            obtain ⟨kv2, hmem, he⟩ := h
            exact Or.inr ⟨kv2, List.mem_cons_of_mem _ hmem, he⟩
      · intro kv2 hmem
        rcases List.mem_cons.mp hmem with he | hm
        · subst he
          exact le_trans hstep2 hmono
        · exact hbound kv2 hm

/-- C9 as stated is false in release semantics: in a vector holding
`2 ^ 31` copies of `1` and a single `2`, the `i32` counter of `1` wraps to
`-2 ^ 31`, so the scan returns `some 2` although `1` occurs strictly more
often than `2`. -/
theorem mode_overflow_cex :
    IsCountMap (List.replicate (2 ^ 31) (1 : Int) ++ [2])
        [((1 : Int), (-(2 ^ 31) : Int)), ((2 : Int), (1 : Int))] ∧
      mode (List.replicate (2 ^ 31) (1 : Int) ++ [2])
        [((1 : Int), (-(2 ^ 31) : Int)), ((2 : Int), (1 : Int))] = some 2 ∧
      (List.replicate (2 ^ 31) (1 : Int) ++ [2]).count 2
        < (List.replicate (2 ^ 31) (1 : Int) ++ [2]).count 1 := by
  have hnot2 : (2 : Int) ∉ List.replicate (2 ^ 31) (1 : Int) := by
    intro h
    exact absurd (List.eq_of_mem_replicate h) (by decide)
  have hc1 : (List.replicate (2 ^ 31) (1 : Int) ++ [2]).count 1 = 2 ^ 31 := by
    rw [List.count_append, List.count_replicate_self]
    have h0 : List.count (1 : Int) [2] = 0 := by decide
    rw [h0]
    norm_num
  have hc2 : (List.replicate (2 ^ 31) (1 : Int) ++ [2]).count 2 = 1 := by
    rw [List.count_append, List.count_eq_zero.mpr hnot2]
    decide
  refine ⟨⟨by decide, ?_, ?_⟩, by decide, ?_⟩
  · intro x hx
    rcases List.mem_append.mp hx with h | h
    · rw [List.eq_of_mem_replicate h]
      decide
    · rw [List.mem_singleton.mp h]
      decide
  · intro kv hkv
    rcases List.mem_cons.mp hkv with h | h
    · subst h
      refine ⟨List.mem_append.mpr (Or.inl (List.mem_replicate.mpr
        ⟨by norm_num, rfl⟩)), ?_⟩
      rw [hc1]
      decide
    · rw [List.mem_singleton.mp h]
      refine ⟨List.mem_append.mpr (Or.inr (by decide)), ?_⟩
      rw [hc2]
      decide
  · rw [hc1, hc2]
    norm_num

/-- C9 amended: given any iteration order of the count-map entries, and
provided every element of `vec` occurs fewer than `2 ^ 31` times (so no
`i32` counter overflows), `mode vec` is `none` iff `vec` is empty, and any
returned value occurs in `vec` with no element of `vec` occurring
strictly more often (the winner among equally-frequent values depends on
the iteration order, hence the quantification over `pairs`). -/
theorem mode_spec (vec : List Int) (pairs : List (Int × Int))
    (hcm : IsCountMap vec pairs)
    (hsmall : ∀ x ∈ vec, (vec.count x : Int) < 2 ^ 31) :
    (mode vec pairs = none ↔ vec = []) ∧
      ∀ x, mode vec pairs = some x →
        x ∈ vec ∧ ∀ y ∈ vec, vec.count y ≤ vec.count x := by
  obtain ⟨hnd, hkeys, hvals⟩ := hcm
  have hvals2 : ∀ kv ∈ pairs, kv.1 ∈ vec ∧ kv.2 = (vec.count kv.1 : Int) := by
    intro kv hkv
    obtain ⟨hmem, hval⟩ := hvals kv hkv
    refine ⟨hmem, ?_⟩
    rw [hval]
    exact wrap32_eq_of_lt _ (Int.ofNat_nonneg _) (hsmall kv.1 hmem)
  obtain ⟨hres, -, hbound⟩ := modeFold_cases pairs (none, 0)
  constructor
  · constructor
    · intro hnone
      by_contra hvne
      obtain ⟨z, hz⟩ := List.exists_mem_of_ne_nil vec hvne
      obtain ⟨kv, hkvmem, hfst⟩ := List.mem_map.mp (hkeys z hz)
      have hc := (hvals2 kv hkvmem).2
      have hpos : 1 ≤ kv.2 := by
        rw [hc]
        have hmem : kv.1 ∈ vec := (hvals2 kv hkvmem).1
        have := List.count_pos_iff.mpr hmem
        omega
      have hle := hbound kv hkvmem
      cases hres with
      | inl h =>
          rw [h] at hle
          simp at hle
          omega
      | inr h =>
          obtain ⟨kv2, -, he⟩ := h
          unfold mode at hnone
          rw [he] at hnone
          exact Option.some_ne_none _ hnone
    · intro hv
      subst hv
      have hp : pairs = [] := by
        cases pairs with
        | nil => rfl
        | cons kv rest =>
            exact absurd ((hvals kv (List.mem_cons_self kv rest)).1)
              (List.not_mem_nil kv.1)
      rw [mode, hp]
      rfl
  · intro x hx
    cases hres with
    | inl h =>
        unfold mode at hx
        rw [h] at hx
        exact absurd hx.symm (Option.some_ne_none x)
    | inr h =>
        obtain ⟨kv, hkvmem, he⟩ := h
        unfold mode at hx
        rw [he] at hx
        have hxe : kv.1 = x := by simpa using hx
        have hkv := hvals2 kv hkvmem
        subst hxe
        refine ⟨hkv.1, ?_⟩
        intro y hy
        obtain ⟨kvy, hkvymem, hfy⟩ := List.mem_map.mp (hkeys y hy)
        have h1 : kvy.2 ≤ (pairs.foldl modeStep (none, 0)).2 :=
          hbound kvy hkvymem
        rw [he] at h1
        have h2 := (hvals2 kvy hkvymem).2
        have hcast : (vec.count kvy.1 : Int) ≤ (vec.count kv.1 : Int) := by
          rw [← h2, ← hkv.2]
          exact h1
        rw [← hfy]
        exact_mod_cast hcast

/-- Witness for C9 on `[1, 2, 2]` with entries scanned as
`[(1, 1), (2, 2)]`; all counts are below `2 ^ 31`. -/
theorem mode_spec_witness :
    mode [(1 : Int), 2, 2] [(1, 1), (2, 2)] = some 2 ∧
      (2 : Int) ∈ [(1 : Int), 2, 2] := by
  have h := mode_spec [(1 : Int), 2, 2] [(1, 1), (2, 2)]
    (by unfold IsCountMap wrap32; decide) (by decide)
  exact ⟨by decide, (h.2 2 (by decide)).1⟩

/-- Naive `fibonacci` from `src/chapter-03/fibonacci/src/main.rs`:
`fibonacci(n) = 1` for `n < 3`, else the sum of the two previous values;
the Rust function computes on `u32`, so the addition is taken modulo
`2 ^ 32`. -/
def fibonacci (n : Nat) : Nat :=
  if h : n < 3 then 1
  else (fibonacci (n - 2) + fibonacci (n - 1)) % 2 ^ 32
termination_by n
decreasing_by
  all_goals omega

/-- The nested helper `f` of `fibonacci_tco`: `f(0, a, b) = a` and
`f(n, a, b) = f(n - 1, a + b, a)`; on `u64`, so addition is modulo
`2 ^ 64`. -/
def fibonacci_tco_f : Nat → Nat → Nat → Nat
  | 0, a, _ => a
  | n + 1, a, b => fibonacci_tco_f n ((a + b) % 2 ^ 64) a

/-- Tail-recursive `fibonacci_tco` from
`src/chapter-03/fibonacci/src/main.rs`: `f(n, 0, 1)`. -/
def fibonacci_tco (n : Nat) : Nat :=
  fibonacci_tco_f n 0 1

lemma fibonacci_tco_f_eq (n : Nat) :
    ∀ a b : Nat, a < 2 ^ 64 →
      fibonacci_tco_f n a b
        = (a * Nat.fib (n + 1) + b * Nat.fib n) % 2 ^ 64 := by
  induction n with
  | zero =>
      intro a b ha
      simp [fibonacci_tco_f]
      omega
  | succ n ih =>
      intro a b ha
      rw [show fibonacci_tco_f (n + 1) a b
            = fibonacci_tco_f n ((a + b) % 2 ^ 64) a from rfl]
      rw [ih ((a + b) % 2 ^ 64) a (Nat.mod_lt _ (by norm_num))]
      have hmod : ((a + b) % 2 ^ 64 * Nat.fib (n + 1) + a * Nat.fib n) % 2 ^ 64
          = ((a + b) * Nat.fib (n + 1) + a * Nat.fib n) % 2 ^ 64 :=
        Nat.ModEq.add_right _ (Nat.ModEq.mul_right _ (Nat.mod_modEq _ _))
      rw [hmod]
      congr 1
      have hfib : Nat.fib (n + 2) = Nat.fib n + Nat.fib (n + 1) :=
        Nat.fib_add_two
      rw [hfib]
      ring

lemma fibonacci_tco_eq_fib (n : Nat) (h : n ≤ 47) :
    fibonacci_tco n = Nat.fib n := by
  unfold fibonacci_tco
  rw [fibonacci_tco_f_eq n 0 1 (by norm_num)]
  simp only [Nat.zero_mul, Nat.one_mul, Nat.zero_add]
  exact Nat.mod_eq_of_lt (lt_of_le_of_lt (Nat.fib_mono h) (by decide))

lemma fibonacci_eq_fib : ∀ n : Nat, 1 ≤ n → n ≤ 47 → fibonacci n = Nat.fib n := by
  intro n
  induction n using Nat.strong_induction_on with
  | _ n ih =>
      intro h1 h47
      rw [fibonacci]
      split_ifs with h
      · interval_cases n <;> rfl
      · rw [ih (n - 2) (by omega) (by omega) (by omega)]
        rw [ih (n - 1) (by omega) (by omega) (by omega)]
        have hfib : Nat.fib (n - 2 + 2) = Nat.fib (n - 2) + Nat.fib (n - 2 + 1) :=
          Nat.fib_add_two
        have hn : n - 2 + 2 = n := by omega
        have hn1 : n - 2 + 1 = n - 1 := by omega
        rw [hn, hn1] at hfib
        rw [← hfib]
        exact Nat.mod_eq_of_lt (lt_of_le_of_lt (Nat.fib_mono h47) (by decide))

/-- C10: the naive `u32` `fibonacci` and the tail-recursive `u64`
`fibonacci_tco` agree on the overflow-free domain `1 ≤ n ≤ 47`, and both
equal the mathematical Fibonacci number (with `fibonacci 1 = fibonacci 2
= 1`). -/
theorem fibonacci_agrees (n : Nat) (h1 : 1 ≤ n) (h2 : n ≤ 47) :
    fibonacci n = fibonacci_tco n ∧ fibonacci n = Nat.fib n := by
  have ha := fibonacci_eq_fib n h1 h2
  have hb := fibonacci_tco_eq_fib n h2
  exact ⟨ha.trans hb.symm, ha⟩

/-- Witness for C10 at `n = 10`. -/
theorem fibonacci_agrees_witness :
    fibonacci 10 = fibonacci_tco 10 ∧ fibonacci 10 = Nat.fib 10 :=
  fibonacci_agrees 10 (by decide) (by decide)
